import Mathlib

/-!
# Verification of `circuit_toolkit/Optimizers.py`

Shallow embedding of the derivative-free optimizers (Cholesky-factor CMA-ES,
its torch and factor-disabled variants, the Hessian-preconditioned variant and
the spherical geodesic engine) over the real numbers, together with proofs of
the specification's claims about them.

Conventions: numpy/torch row vectors become `Fin n → ℝ`, matrices become
`Matrix (Fin n) (Fin n) ℝ`, populations (stacked rows) become lists of rows,
floating-point arithmetic becomes real arithmetic, and the random draws
(`randn`) become explicit arguments of the step functions.
-/

set_option maxHeartbeats 1000000

open Matrix

/-! ## Vector norm (numpy.linalg.norm / torch.norm of a row vector) -/

/-- Euclidean norm of a row vector, as computed by `numpy.linalg.norm`. -/
noncomputable def normE {n : ℕ} (v : Fin n → ℝ) : ℝ :=
  Real.sqrt (∑ i, v i ^ 2)

lemma normE_nonneg {n : ℕ} (v : Fin n → ℝ) : 0 ≤ normE v :=
  Real.sqrt_nonneg _

lemma normE_zero {n : ℕ} : normE (0 : Fin n → ℝ) = 0 := by
  simp [normE]

lemma normE_eq_zero_iff {n : ℕ} (v : Fin n → ℝ) : normE v = 0 ↔ v = 0 := by
  constructor
  · intro h
    have hsum : (∑ i, v i ^ 2) = 0 := by
      have hnn : 0 ≤ ∑ i, v i ^ 2 := Finset.sum_nonneg fun i _ => sq_nonneg _
      have := (Real.sqrt_eq_zero hnn).1 h
      exact this
    funext i
    have := (Finset.sum_eq_zero_iff_of_nonneg fun j _ => sq_nonneg (v j)).1 hsum i
      (Finset.mem_univ i)
    exact pow_eq_zero_iff (n := 2) (by norm_num) |>.1 this
  · rintro rfl; exact normE_zero

lemma normE_smul {n : ℕ} (c : ℝ) (v : Fin n → ℝ) :
    normE (c • v) = |c| * normE v := by
  unfold normE
  have : (∑ i, (c • v) i ^ 2) = c ^ 2 * ∑ i, v i ^ 2 := by
    rw [Finset.mul_sum]
    refine Finset.sum_congr rfl fun i _ => ?_
    simp [mul_pow]
  rw [this, Real.sqrt_mul (sq_nonneg c), Real.sqrt_sq_eq_abs]

/-! ## List helpers -/

lemma list_sum_map_range (f : ℕ → ℝ) (m : ℕ) :
    ((List.range m).map f).sum = ∑ i in Finset.range m, f i := by
  induction m with
  | zero => simp
  | succ k ih =>
      rw [List.range_succ, List.map_append, List.sum_append, Finset.sum_range_succ, ih]
      simp

lemma list_sum_map_div (l : List ℝ) (c : ℝ) :
    (l.map (fun x => x / c)).sum = l.sum / c := by
  induction l with
  | nil => simp
  | cons a t ih => simp [ih, add_div]

lemma getD_map_range (h : ℕ → ℝ) (m i : ℕ) :
    ((List.range m).map h).getD i 0 = if i < m then h i else 0 := by
  by_cases hi : i < m
  · rw [if_pos hi, List.getD_eq_getElem?_getD]
    simp [List.getElem?_map, List.getElem?_range hi]
  · rw [if_neg hi, List.getD_eq_getElem?_getD]
    have hlen : ((List.range m).map h).length ≤ i := by
      simpa using le_of_not_lt hi
    simp [List.getElem?_eq_none hlen]

/-! ## Rank weighting (`rankweight`, Optimizers.py lines 140-151)

`weights = zeros(int(lambda_)); weights[:mu_int] = log(mu + 1/2) - log(arange(1, 1 + floor(mu)));
 weights = weights / sum(weights)`. -/

/-- Entry `i` (0-based) of the unnormalized rank-weight vector: the source fills
`weights[:mu_int]` with `log(mu + 1/2) - log(arange(1, 1 + floor(mu)))` and leaves
zeros beyond. -/
noncomputable def rankweightRaw (mu : ℝ) (i : ℕ) : ℝ :=
  if (i : ℤ) < ⌊mu⌋ then Real.log (mu + 1 / 2) - Real.log ((i : ℝ) + 1) else 0

/-- The normalizer `sum(weights)` used by `rankweight`. -/
noncomputable def rankweightSum (lam : ℕ) (mu : ℝ) : ℝ :=
  ((List.range lam).map (rankweightRaw mu)).sum

/-- The `rankweight` function: a length-`lam` vector whose first `⌊mu⌋` entries
are `log(mu + 1/2) - log(i)` for `i = 1..⌊mu⌋` (zero beyond), normalized by the
total sum (`weights = weights / sum(weights)`). -/
noncomputable def rankweight (lam : ℕ) (mu : ℝ) : List ℝ :=
  let u := (List.range lam).map (rankweightRaw mu)
  u.map (fun x => x / u.sum)

lemma rankweight_eq (lam : ℕ) (mu : ℝ) :
    rankweight lam mu
      = (List.range lam).map (fun i => rankweightRaw mu i / rankweightSum lam mu) := by
  simp only [rankweight, rankweightSum, List.map_map]
  rfl

lemma rankweightRaw_pos (mu : ℝ) (i : ℕ) (hi : (i : ℤ) < ⌊mu⌋) :
    0 < rankweightRaw mu i := by
  rw [rankweightRaw, if_pos hi]
  have hle : ((i : ℝ) + 1) ≤ mu := by
    have h2 : ((i : ℤ) + 1) ≤ ⌊mu⌋ := hi
    have h3 : (((i : ℤ) + 1 : ℤ) : ℝ) ≤ mu := le_trans (by exact_mod_cast Int.cast_le.2 h2)
      (Int.floor_le mu)
    push_cast at h3
    linarith
  have hpos : (0 : ℝ) < (i : ℝ) + 1 := by positivity
  have := Real.log_lt_log hpos (by linarith : (i : ℝ) + 1 < mu + 1 / 2)
  linarith

lemma rankweightRaw_strict_anti (mu : ℝ) (i j : ℕ) (hij : i < j) (hj : (j : ℤ) < ⌊mu⌋) :
    rankweightRaw mu j < rankweightRaw mu i := by
  have hi : (i : ℤ) < ⌊mu⌋ := by omega
  rw [rankweightRaw, rankweightRaw, if_pos hi, if_pos hj]
  have : Real.log ((i : ℝ) + 1) < Real.log ((j : ℝ) + 1) := by
    refine Real.log_lt_log (by positivity) ?_
    exact_mod_cast by omega
  linarith

lemma rankweightSum_eq (lam : ℕ) (mu : ℝ) (hmlam : ⌊mu⌋.toNat ≤ lam) :
    rankweightSum lam mu = ∑ i in Finset.range ⌊mu⌋.toNat, rankweightRaw mu i := by
  rw [rankweightSum, list_sum_map_range]
  rw [← Finset.sum_subset (Finset.range_subset.2 hmlam)]
  intro x hx hnx
  rw [Finset.mem_range] at hnx
  rw [rankweightRaw, if_neg (by omega)]

lemma rankweightSum_pos (lam : ℕ) (mu : ℝ) (hmu1 : 1 ≤ mu) (hmulam : mu ≤ (lam : ℝ)) :
    0 < rankweightSum lam mu := by
  have hfl1 : (1 : ℤ) ≤ ⌊mu⌋ := Int.le_floor.2 (by push_cast; linarith)
  have hflam : ⌊mu⌋ ≤ (lam : ℤ) := by
    have := Int.floor_le_floor hmulam
    simpa using this
  rw [rankweightSum_eq lam mu (by omega)]
  refine Finset.sum_pos (fun i hi => rankweightRaw_pos mu i ?_) ?_
  · have := Finset.mem_range.1 hi; omega
  · exact Finset.nonempty_range_iff.2 (by omega)

lemma rankweight_getD (lam : ℕ) (mu : ℝ) (i : ℕ) :
    (rankweight lam mu).getD i 0
      = if i < lam then rankweightRaw mu i / rankweightSum lam mu else 0 := by
  rw [rankweight_eq, getD_map_range]

/-- **C6** For every population size λ ≥ 2 and every valid cutoff μ (1 ≤ μ ≤ λ),
`rankweight(λ, μ)` returns a vector of length λ whose first ⌊μ⌋ entries are
proportional to `log(μ+0.5) − log(i)` for `i = 1..⌊μ⌋` and whose remaining
entries are zero; the vector is non-negative, sums to 1, and its non-zero
entries are strictly decreasing. -/
theorem rankweight_spec (lam : ℕ) (mu : ℝ) (hlam : 2 ≤ lam) (hmu1 : 1 ≤ mu)
    (hmulam : mu ≤ (lam : ℝ)) :
    (rankweight lam mu).length = lam ∧
    (∃ c : ℝ, 0 < c ∧ ∀ i : ℕ, (i : ℤ) < ⌊mu⌋ →
      (rankweight lam mu).getD i 0
        = c * (Real.log (mu + 1 / 2) - Real.log ((i : ℝ) + 1))) ∧
    (∀ i : ℕ, ⌊mu⌋ ≤ (i : ℤ) → (rankweight lam mu).getD i 0 = 0) ∧
    (∀ i : ℕ, 0 ≤ (rankweight lam mu).getD i 0) ∧
    (rankweight lam mu).sum = 1 ∧
    (∀ i j : ℕ, i < j → (j : ℤ) < ⌊mu⌋ →
      (rankweight lam mu).getD j 0 < (rankweight lam mu).getD i 0) := by
  have hfl1 : (1 : ℤ) ≤ ⌊mu⌋ := Int.le_floor.2 (by push_cast; linarith)
  have hflam : ⌊mu⌋ ≤ (lam : ℤ) := by
    have := Int.floor_le_floor hmulam
    simpa using this
  have hSpos : 0 < rankweightSum lam mu := rankweightSum_pos lam mu hmu1 hmulam
  refine ⟨?_, ?_, ?_, ?_, ?_, ?_⟩
  · rw [rankweight_eq]; simp
  · refine ⟨(rankweightSum lam mu)⁻¹, inv_pos.2 hSpos, fun i hi => ?_⟩
    have hilam : i < lam := by omega
    rw [rankweight_getD, if_pos hilam, rankweightRaw, if_pos hi, div_eq_mul_inv, mul_comm]
  · intro i hi
    rw [rankweight_getD]
    by_cases hilam : i < lam
    · rw [if_pos hilam, rankweightRaw, if_neg (by omega), zero_div]
    · rw [if_neg hilam]
  · intro i
    rw [rankweight_getD]
    by_cases hilam : i < lam
    · rw [if_pos hilam]
      by_cases hi : (i : ℤ) < ⌊mu⌋
      · exact le_of_lt (div_pos (rankweightRaw_pos mu i hi) hSpos)
      · rw [rankweightRaw, if_neg hi, zero_div]
    · rw [if_neg hilam]
  · rw [rankweight]
    have := list_sum_map_div ((List.range lam).map (rankweightRaw mu))
      ((List.range lam).map (rankweightRaw mu)).sum
    rw [this]
    exact div_self (by rw [← rankweightSum]; exact ne_of_gt hSpos)
  · intro i j hij hj
    have hjlam : j < lam := by omega
    have hilam : i < lam := by omega
    rw [rankweight_getD, rankweight_getD, if_pos hilam, if_pos hjlam]
    exact (div_lt_div_iff_of_pos_right hSpos).2 (rankweightRaw_strict_anti mu i j hij hj)

/-- Witness for **C6** at λ = 4, μ = 2. -/
theorem rankweight_spec_witness :
    (2 ≤ 4 ∧ (1 : ℝ) ≤ 2 ∧ (2 : ℝ) ≤ (4 : ℕ)) ∧
    ((rankweight 4 2).length = 4 ∧
    (∃ c : ℝ, 0 < c ∧ ∀ i : ℕ, (i : ℤ) < ⌊(2 : ℝ)⌋ →
      (rankweight 4 2).getD i 0
        = c * (Real.log ((2 : ℝ) + 1 / 2) - Real.log ((i : ℝ) + 1))) ∧
    (∀ i : ℕ, ⌊(2 : ℝ)⌋ ≤ (i : ℤ) → (rankweight 4 2).getD i 0 = 0) ∧
    (∀ i : ℕ, 0 ≤ (rankweight 4 2).getD i 0) ∧
    (rankweight 4 2).sum = 1 ∧
    (∀ i j : ℕ, i < j → (j : ℤ) < ⌊(2 : ℝ)⌋ →
      (rankweight 4 2).getD j 0 < (rankweight 4 2).getD i 0)) :=
  ⟨⟨by norm_num, by norm_num, by norm_num⟩,
    rankweight_spec 4 2 (by norm_num) (by norm_num) (by norm_num)⟩

/-! ## The rank-one factor refresh (Optimizers.py lines 112-121 and 265-274)

`v = pc @ Ainv; normv = v @ v.T;
 A    = sqrt(1-c1) * A + sqrt(1-c1)/normv * (sqrt(1 + normv*c1/(1-c1)) - 1) * v.T @ pc
 Ainv = 1/sqrt(1-c1) * Ainv - 1/sqrt(1-c1)/normv * (1 - 1/sqrt(1 + normv*c1/(1-c1))) * Ainv @ v.T @ v` -/

/-- The refreshed factor `A` of the conditional rank-one update. -/
noncomputable def refreshA {n : ℕ} (c1 : ℝ) (A : Matrix (Fin n) (Fin n) ℝ)
    (pc v : Fin n → ℝ) (normv : ℝ) : Matrix (Fin n) (Fin n) ℝ :=
  Real.sqrt (1 - c1) • A
    + (Real.sqrt (1 - c1) / normv * (Real.sqrt (1 + normv * c1 / (1 - c1)) - 1))
        • vecMulVec v pc

/-- The refreshed factor `A⁻¹` of the conditional rank-one update. -/
noncomputable def refreshAinv {n : ℕ} (c1 : ℝ) (Ainv : Matrix (Fin n) (Fin n) ℝ)
    (v : Fin n → ℝ) (normv : ℝ) : Matrix (Fin n) (Fin n) ℝ :=
  (1 / Real.sqrt (1 - c1)) • Ainv
    - (1 / Real.sqrt (1 - c1) / normv * (1 - 1 / Real.sqrt (1 + normv * c1 / (1 - c1))))
        • (Ainv * vecMulVec v v)

lemma vecMulVec_mul_right {n : ℕ} (v w : Fin n → ℝ) (M : Matrix (Fin n) (Fin n) ℝ) :
    vecMulVec v w * M = vecMulVec v (vecMul w M) := by
  ext i j
  simp [Matrix.mul_apply, vecMulVec_apply, vecMul, dotProduct, Finset.mul_sum, mul_assoc]

lemma vecMulVec_mul_vecMulVec {n : ℕ} (a b c d : Fin n → ℝ) :
    vecMulVec a b * vecMulVec c d = (b ⬝ᵥ c) • vecMulVec a d := by
  ext i j
  simp only [Matrix.mul_apply, vecMulVec_apply, Matrix.smul_apply, smul_eq_mul, dotProduct,
    Finset.sum_mul]
  refine Finset.sum_congr rfl fun k _ => ?_
  ring

lemma dotProduct_self_nonneg' {n : ℕ} (v : Fin n → ℝ) : 0 ≤ v ⬝ᵥ v :=
  Finset.sum_nonneg fun i _ => mul_self_nonneg (v i)

/-- Core algebraic fact behind C1: the Sherman-Morrison style rank-one refresh
preserves `A * Ainv = 1`, provided `v = pc @ Ainv`, `normv = v·v ≠ 0` and
`0 < c1 < 1`. -/
lemma refresh_mul_refresh {n : ℕ} (c1 : ℝ) (A Ainv : Matrix (Fin n) (Fin n) ℝ)
    (pc : Fin n → ℝ) (hAI : A * Ainv = 1) (hc1 : 0 < c1) (hc1' : c1 < 1)
    (hnz : (vecMul pc Ainv) ⬝ᵥ (vecMul pc Ainv) ≠ 0) :
    refreshA c1 A pc (vecMul pc Ainv) ((vecMul pc Ainv) ⬝ᵥ (vecMul pc Ainv))
      * refreshAinv c1 Ainv (vecMul pc Ainv) ((vecMul pc Ainv) ⬝ᵥ (vecMul pc Ainv)) = 1 := by
  set v : Fin n → ℝ := vecMul pc Ainv with hv
  set nv : ℝ := v ⬝ᵥ v with hnv
  have hnvpos : 0 < nv := lt_of_le_of_ne (dotProduct_self_nonneg' v) (Ne.symm hnz)
  have h1c : (0 : ℝ) < 1 - c1 := by linarith
  have hα : 0 < Real.sqrt (1 - c1) := Real.sqrt_pos.2 h1c
  have hrad : (1 : ℝ) ≤ 1 + nv * c1 / (1 - c1) := by
    have : 0 ≤ nv * c1 / (1 - c1) := div_nonneg (mul_nonneg hnvpos.le hc1.le) h1c.le
    linarith
  have hs1 : (1 : ℝ) ≤ Real.sqrt (1 + nv * c1 / (1 - c1)) := by
    have := Real.sqrt_le_sqrt hrad
    rwa [Real.sqrt_one] at this
  have hs0 : Real.sqrt (1 + nv * c1 / (1 - c1)) ≠ 0 := by linarith
  rw [refreshA, refreshAinv]
  rw [Matrix.add_mul, Matrix.mul_sub, Matrix.mul_sub]
  simp only [Matrix.smul_mul, Matrix.mul_smul, smul_smul]
  rw [hAI]
  rw [← Matrix.mul_assoc A Ainv (vecMulVec v v), hAI, Matrix.one_mul]
  rw [vecMulVec_mul_right v pc Ainv, ← hv]
  rw [← Matrix.mul_assoc (vecMulVec v pc) Ainv (vecMulVec v v),
    vecMulVec_mul_right v pc Ainv, ← hv, vecMulVec_mul_vecMulVec, ← hnv, smul_smul]
  have e1 : 1 / Real.sqrt (1 - c1) * Real.sqrt (1 - c1) = 1 := by
    field_simp
  have e2 : 1 / Real.sqrt (1 - c1)
        * (Real.sqrt (1 - c1) / nv * (Real.sqrt (1 + nv * c1 / (1 - c1)) - 1))
      = 1 / Real.sqrt (1 - c1) / nv * (1 - 1 / Real.sqrt (1 + nv * c1 / (1 - c1)))
          * Real.sqrt (1 - c1)
        + 1 / Real.sqrt (1 - c1) / nv * (1 - 1 / Real.sqrt (1 + nv * c1 / (1 - c1)))
          * (Real.sqrt (1 - c1) / nv * (Real.sqrt (1 + nv * c1 / (1 - c1)) - 1)) * nv := by
    field_simp
    ring
  rw [e1, one_smul, e2, add_smul]
  abel

/-! ## Sorting and recombination helpers shared by the engines -/

/-- `np.argsort` / `torch.argsort` (ascending): indices of the list sorted by value. -/
noncomputable def argsortR (s : List ℝ) : List ℕ :=
  (List.range s.length).mergeSort (fun i j => decide (s.getD i 0 ≤ s.getD j 0))

/-- `argsort(-scores)` when maximizing, `argsort(scores)` otherwise
(lines 86-89, 237-240, 369-372). -/
noncomputable def sortIdxOf (maximize : Bool) (scores : List ℝ) : List ℕ :=
  if maximize then argsortR (scores.map fun x => -x) else argsortR scores

/-- Row-vector times row-stack product `w @ rows` (a weighted sum of rows). -/
def listWeightedSum {n : ℕ} (w : List ℝ) (rows : List (Fin n → ℝ)) : Fin n → ℝ :=
  (List.zipWith (fun c r => c • r) w rows).sum

/-- `rows[idx[0:mu], :]`: the rows selected by the first `mu` sort indices. -/
def selRows {n : ℕ} (idx : List ℕ) (mu : ℕ) (rows : List (Fin n → ℝ)) :
    List (Fin n → ℝ) :=
  (idx.take mu).map (fun k => rows.getD k 0)

/-- Evolution-path update `p ← (1-c)·p + sqrt(c(2-c)·mueff)·w`
(lines 104-105, 256-257, 388-389). -/
noncomputable def pathUpdate {n : ℕ} (c m : ℝ) (p w : Fin n → ℝ) : Fin n → ℝ :=
  (1 - c) • p + Real.sqrt (c * (2 - c) * m) • w

/-! ## CholeskyCMAES (lines 10-138); the torch copy (lines 154-284) computes the
same real functions, so it shares the state type and helper definitions. -/

/-- The unnormalized constructor weight `log(lambda/2 + 1/2) - log(i + 1)`
(`mu = lambda_/2` before flooring, line 24-26). -/
noncomputable def cmaRaw (lam : ℕ) (i : ℕ) : ℝ :=
  Real.log ((lam : ℝ) / 2 + 1 / 2) - Real.log ((i : ℝ) + 1)

/-- The constructor weight normalizer `sum(weights)` (line 28). -/
noncomputable def cmaWSum (lam : ℕ) : ℝ :=
  ((List.range (lam / 2)).map (cmaRaw lam)).sum

/-- The normalized recombination weights of the constructor (lines 24-28):
`mu = lambda/2; weights = log(mu + 1/2) - log(arange(1, 1 + floor(mu)));
 weights = weights / sum(weights)`. -/
noncomputable def cmaWeights (lam : ℕ) : List ℝ :=
  let w := (List.range (lam / 2)).map (cmaRaw lam)
  w.map (fun x => x / w.sum)

/-- Mutable state of a `CholeskyCMAES` instance (fields of `__init__`). -/
structure CholState (n : ℕ) where
  lambda_ : ℕ
  mu : ℕ
  maximize : Bool
  weights : List ℝ
  mueff : ℝ
  cc : ℝ
  cs : ℝ
  c1 : ℝ
  damps : ℝ
  chiN : ℝ
  sigma : ℝ
  update_crit : ℝ
  init_x : Option (Fin n → ℝ)
  xmean : Fin n → ℝ
  xold : Fin n → ℝ
  pc : Fin n → ℝ
  ps : Fin n → ℝ
  A : Matrix (Fin n) (Fin n) ℝ
  Ainv : Matrix (Fin n) (Fin n) ℝ
  eigeneval : ℕ
  counteval : ℕ
  istep : ℕ
  randz : List (Fin n → ℝ)

/-- `CholeskyCMAES.__init__` (lines 12-69); `randn` state starts empty. -/
noncomputable def cholInit (n : ℕ) (population_size : Option ℕ) (init_sigma : ℝ)
    (init_code : Option (Fin n → ℝ)) (Aupdate_freq : Option ℝ)
    (cc_opt cs_opt c1_opt : Option ℝ) : CholState n :=
  let lam : ℕ := match population_size with
    | some l => l
    | none => (4 + ⌊3 * Real.logb 2 (n : ℝ)⌋).toNat
  let weights := cmaWeights lam
  let mueff : ℝ := weights.sum ^ 2 / (weights.map (fun x => x ^ 2)).sum
  let cc := cc_opt.getD (4 / ((n : ℝ) + 4))
  let cs := cs_opt.getD (Real.sqrt mueff / (Real.sqrt mueff + Real.sqrt (n : ℝ)))
  let c1 := c1_opt.getD (2 / ((n : ℝ) + Real.sqrt 2) ^ 2)
  { lambda_ := lam
    mu := lam / 2
    maximize := true
    weights := weights
    mueff := mueff
    cc := cc
    cs := cs
    c1 := c1
    damps := 1 + cs + 2 * max 0 (Real.sqrt ((mueff - 1) / ((n : ℝ) + 1)) - 1)
    chiN := Real.sqrt (n : ℝ) * (1 - 1 / (4 * (n : ℝ)) + 1 / (21 * (n : ℝ) ^ 2))
    sigma := init_sigma
    update_crit := match Aupdate_freq with
      | none => (lam : ℝ) / c1 / (n : ℝ) / 10
      | some f => f * (lam : ℝ)
    init_x := init_code
    xmean := 0
    xold := 0
    pc := 0
    ps := 0
    A := 1
    Ainv := 1
    eigeneval := 0
    counteval := 0
    istep := 0
    randz := [] }

/-- `randzw = weights @ randz[sort_index[0:mu], :]` (line 103 / 255). -/
noncomputable def cholRandzw {n : ℕ} (st : CholState n) (scores : List ℝ) : Fin n → ℝ :=
  listWeightedSum st.weights (selRows (sortIdxOf st.maximize scores) st.mu st.randz)

/-- The updated `ps` (line 104 / 256). -/
noncomputable def cholPsNew {n : ℕ} (st : CholState n) (scores : List ℝ) : Fin n → ℝ :=
  pathUpdate st.cs st.mueff st.ps (cholRandzw st scores)

/-- The updated `pc` (line 105 / 257): note the extra `@ A`. -/
noncomputable def cholPcNew {n : ℕ} (st : CholState n) (scores : List ℝ) : Fin n → ℝ :=
  pathUpdate st.cc st.mueff st.pc (vecMul (cholRandzw st scores) st.A)

/-- First-generation mean (lines 91-98): with no `init_x`, the weights are
renormalized over `select_n = len(sort_index[0:mu])` entries. -/
noncomputable def cholFirstMean {n : ℕ} (st : CholState n) (scores : List ℝ)
    (codes : List (Fin n → ℝ)) : Fin n → ℝ :=
  match st.init_x with
  | some x0 => x0
  | none =>
      let select_n := ((sortIdxOf st.maximize scores).take st.mu).length
      let tw := (st.weights.take select_n).map
        (fun x => x / (st.weights.take select_n).sum)
      listWeightedSum tw (selRows (sortIdxOf st.maximize scores) st.mu codes)

/-- `CholeskyCMAES.step_simple` (lines 74-138).  The fresh normal draw
`randn(lambda_, N)` is the explicit argument `rz`. -/
noncomputable def stepChol {n : ℕ} (st : CholState n) (scores : List ℝ)
    (codes rz : List (Fin n → ℝ)) : CholState n × List (Fin n → ℝ) :=
  if st.istep = 0 then
    let xmean' := cholFirstMean st scores codes
    ({ st with
        xmean := xmean'
        randz := rz
        counteval := st.counteval + st.lambda_
        istep := st.istep + 1 },
      rz.map (fun z => xmean' + st.sigma • vecMul z st.A))
  else
    let xmean' := listWeightedSum st.weights
      (selRows (sortIdxOf st.maximize scores) st.mu codes)
    let ps' := cholPsNew st scores
    let pc' := cholPcNew st scores
    let sigma' := st.sigma * Real.exp ((st.cs / st.damps) * (normE ps' / st.chiN - 1))
    let upd : Matrix (Fin n) (Fin n) ℝ × Matrix (Fin n) (Fin n) ℝ × ℕ :=
      if (st.counteval : ℝ) - (st.eigeneval : ℝ) > st.update_crit then
        (refreshA st.c1 st.A pc' (vecMul pc' st.Ainv)
            ((vecMul pc' st.Ainv) ⬝ᵥ (vecMul pc' st.Ainv)),
         refreshAinv st.c1 st.Ainv (vecMul pc' st.Ainv)
            ((vecMul pc' st.Ainv) ⬝ᵥ (vecMul pc' st.Ainv)),
         st.counteval)
      else (st.A, st.Ainv, st.eigeneval)
    ({ st with
        xold := st.xmean
        xmean := xmean'
        ps := ps'
        pc := pc'
        sigma := sigma'
        A := upd.1
        Ainv := upd.2.1
        eigeneval := upd.2.2
        counteval := st.counteval + st.lambda_
        istep := st.istep + 1
        randz := rz },
      rz.map (fun z => xmean' + sigma' • vecMul z upd.1))

/-- Iterated `step_simple` over a list of generations `(scores, codes, randn-draw)`. -/
noncomputable def runChol {n : ℕ} (st : CholState n)
    (gens : List (List ℝ × List (Fin n → ℝ) × List (Fin n → ℝ))) : CholState n :=
  gens.foldl (fun s g => (stepChol s g.1 g.2.1 g.2.2).1) st

/-- **C1** Whenever `step_simple` executes the conditional rank-one refresh
(`counteval - eigeneval > update_crit`), then assuming `A @ Ainv = I` held
before the refresh, `0 < c1 < 1`, and the normalizer `normv = v @ v.T` is
nonzero, the updated pair again satisfies `A @ Ainv = I`. -/
theorem stepChol_refresh_inverse {n : ℕ} (st : CholState n) (scores : List ℝ)
    (codes rz : List (Fin n → ℝ))
    (h0 : st.istep ≠ 0)
    (hcond : (st.counteval : ℝ) - (st.eigeneval : ℝ) > st.update_crit)
    (hAI : st.A * st.Ainv = 1)
    (hc1 : 0 < st.c1) (hc1' : st.c1 < 1)
    (hnz : (vecMul (cholPcNew st scores) st.Ainv)
        ⬝ᵥ (vecMul (cholPcNew st scores) st.Ainv) ≠ 0) :
    (stepChol st scores codes rz).1.A * (stepChol st scores codes rz).1.Ainv = 1 := by
  rw [stepChol, if_neg h0]
  simp only [if_pos hcond]
  exact refresh_mul_refresh st.c1 st.A st.Ainv (cholPcNew st scores) hAI hc1 hc1' hnz

/-- Concrete one-dimensional state exercising the refresh branch for the C1 witness. -/
noncomputable def c1WitState : CholState 1 :=
  { lambda_ := 4
    mu := 0
    maximize := true
    weights := []
    mueff := 1
    cc := 0
    cs := 0
    c1 := 1 / 2
    damps := 1
    chiN := 1
    sigma := 1
    update_crit := 1
    init_x := none
    xmean := 0
    xold := 0
    pc := fun _ => 1
    ps := 0
    A := 1
    Ainv := 1
    eigeneval := 0
    counteval := 100
    istep := 1
    randz := [] }

/-- Witness for **C1**: the refresh branch runs on `c1WitState` with a nonzero
normalizer and preserves the inverse-pair invariant. -/
theorem stepChol_refresh_inverse_witness :
    (c1WitState.istep ≠ 0 ∧
     (c1WitState.counteval : ℝ) - (c1WitState.eigeneval : ℝ) > c1WitState.update_crit ∧
     c1WitState.A * c1WitState.Ainv = 1 ∧
     0 < c1WitState.c1 ∧ c1WitState.c1 < 1 ∧
     (vecMul (cholPcNew c1WitState [5]) c1WitState.Ainv)
        ⬝ᵥ (vecMul (cholPcNew c1WitState [5]) c1WitState.Ainv) ≠ 0) ∧
    (stepChol c1WitState [5] [0] [0]).1.A * (stepChol c1WitState [5] [0] [0]).1.Ainv = 1 := by
  have hnz : (vecMul (cholPcNew c1WitState [5]) c1WitState.Ainv)
      ⬝ᵥ (vecMul (cholPcNew c1WitState [5]) c1WitState.Ainv) ≠ 0 := by
    have hpc : cholPcNew c1WitState [5] = fun _ => (1 : ℝ) := by
      funext i
      simp [cholPcNew, cholRandzw, pathUpdate, listWeightedSum, selRows, c1WitState]
    rw [hpc]
    simp [c1WitState, vecMul_one, dotProduct, Fin.sum_univ_one]
  refine ⟨⟨by simp [c1WitState], by norm_num [c1WitState], by simp [c1WitState],
    by norm_num [c1WitState], by norm_num [c1WitState], hnz⟩, ?_⟩
  exact stepChol_refresh_inverse c1WitState [5] [0] [0]
    (by simp [c1WitState]) (by norm_num [c1WitState]) (by simp [c1WitState])
    (by norm_num [c1WitState]) (by norm_num [c1WitState]) hnz

/-- Per-step positivity of σ: generation 0 keeps σ, later generations multiply
by a positive exponential (line 107). -/
lemma stepChol_sigma_pos {n : ℕ} (st : CholState n) (scores : List ℝ)
    (codes rz : List (Fin n → ℝ)) (h : 0 < st.sigma) :
    0 < (stepChol st scores codes rz).1.sigma := by
  rw [stepChol]
  by_cases h0 : st.istep = 0
  · rw [if_pos h0]
    simpa using h
  · rw [if_neg h0]
    exact mul_pos h (Real.exp_pos _)

/-- **C5** For every initial σ > 0, after any number of `step_simple` calls of
`CholeskyCMAES` (any scores, codes and normal draws), σ remains strictly
positive. -/
theorem runChol_sigma_pos {n : ℕ}
    (gens : List (List ℝ × List (Fin n → ℝ) × List (Fin n → ℝ)))
    (st : CholState n) (h : 0 < st.sigma) : 0 < (runChol st gens).sigma := by
  induction gens generalizing st with
  | nil => simpa [runChol] using h
  | cons g t ih =>
      rw [runChol, List.foldl_cons]
      exact ih _ (stepChol_sigma_pos st g.1 g.2.1 g.2.2 h)

/-- Witness for **C5**: a freshly constructed optimizer with `init_sigma = 3`
keeps σ positive across a generation. -/
theorem runChol_sigma_pos_witness :
    0 < (cholInit 2 (some 4) 3 none (some 10) none none none).sigma ∧
    0 < (runChol (cholInit 2 (some 4) 3 none (some 10) none none none)
          [([1, 2, 3, 4], [0, 0, 0, 0], [0, 0, 0, 0])]).sigma := by
  have h : 0 < (cholInit 2 (some 4) 3 none (some 10) none none none).sigma := by
    norm_num [cholInit]
  exact ⟨h, runChol_sigma_pos _ _ h⟩

lemma length_sortIdxOf (b : Bool) (scores : List ℝ) :
    (sortIdxOf b scores).length = scores.length := by
  rw [sortIdxOf]
  cases b <;> simp [argsortR, List.length_mergeSort]

lemma cmaWeights_eq (lam : ℕ) :
    cmaWeights lam = (List.range (lam / 2)).map (fun i => cmaRaw lam i / cmaWSum lam) := by
  simp only [cmaWeights, cmaWSum, List.map_map]
  rfl

lemma cmaRaw_pos (lam i : ℕ) (hi : i < lam / 2) : 0 < cmaRaw lam i := by
  have h2 : ((i + 1 : ℕ) : ℝ) ≤ ((lam / 2 : ℕ) : ℝ) := Nat.cast_le.2 hi
  have h3 : ((lam / 2 : ℕ) : ℝ) ≤ (lam : ℝ) / 2 := Nat.cast_div_le
  push_cast at h2
  have := Real.log_lt_log (by positivity : (0 : ℝ) < (i : ℝ) + 1)
    (by linarith : (i : ℝ) + 1 < (lam : ℝ) / 2 + 1 / 2)
  rw [cmaRaw]
  linarith

lemma cmaWSum_pos (lam : ℕ) (hlam : 2 ≤ lam) : 0 < cmaWSum lam := by
  rw [cmaWSum, list_sum_map_range]
  refine Finset.sum_pos (fun i hi => cmaRaw_pos lam i (Finset.mem_range.1 hi)) ?_
  exact Finset.nonempty_range_iff.2 (by omega)

lemma cmaWeights_take_sum (lam k : ℕ) (hk : k ≤ lam / 2) :
    ((cmaWeights lam).take k).sum = (∑ i in Finset.range k, cmaRaw lam i) / cmaWSum lam := by
  rw [cmaWeights_eq, ← List.map_take, List.take_range, min_eq_left hk, list_sum_map_range,
    Finset.sum_div]

lemma cmaWeights_take_sum_pos (lam k : ℕ) (hlam : 2 ≤ lam) (hk1 : 1 ≤ k)
    (hk : k ≤ lam / 2) : 0 < ((cmaWeights lam).take k).sum := by
  rw [cmaWeights_take_sum lam k hk]
  refine div_pos ?_ (cmaWSum_pos lam hlam)
  refine Finset.sum_pos
    (fun i hi => cmaRaw_pos lam i (lt_of_lt_of_le (Finset.mem_range.1 hi) hk)) ?_
  exact Finset.nonempty_range_iff.2 (by omega)

/-- **C9** On the first `step_simple` call of a `CholeskyCMAES` constructed
without an initial mean, a population with fewer codes than μ raises no error:
the recombination weights are renormalized over the available subset and the
mean is the renormalized weighted average of the best available codes (and the
renormalized weights sum to 1). -/
theorem stepChol_underpop {n : ℕ} (st : CholState n) (scores : List ℝ)
    (codes rz : List (Fin n → ℝ))
    (h0 : st.istep = 0) (hinit : st.init_x = none)
    (hw : st.weights = cmaWeights st.lambda_) (hmu : st.mu = st.lambda_ / 2)
    (hlam : 2 ≤ st.lambda_) (hB1 : 1 ≤ scores.length) (hB : scores.length < st.mu) :
    (stepChol st scores codes rz).1.xmean
      = listWeightedSum ((st.weights.take scores.length).map
          (fun x => x / (st.weights.take scores.length).sum))
          (selRows (sortIdxOf st.maximize scores) st.mu codes) ∧
    ((st.weights.take scores.length).map
        (fun x => x / (st.weights.take scores.length).sum)).sum = 1 := by
  have hlen : ((sortIdxOf st.maximize scores).take st.mu).length = scores.length := by
    rw [List.length_take, length_sortIdxOf, min_eq_right (le_of_lt hB)]
  constructor
  · have h1 : (stepChol st scores codes rz).1.xmean = cholFirstMean st scores codes := by
      rw [stepChol, if_pos h0]
    have h2 : cholFirstMean st scores codes
        = listWeightedSum ((st.weights.take scores.length).map
            (fun x => x / (st.weights.take scores.length).sum))
            (selRows (sortIdxOf st.maximize scores) st.mu codes) := by
      rw [cholFirstMean, hinit]
      simp only [hlen]
    rw [h1, h2]
  · rw [list_sum_map_div]
    refine div_self (ne_of_gt ?_)
    rw [hw]
    exact cmaWeights_take_sum_pos st.lambda_ scores.length hlam hB1 (by omega)

/-- Witness for **C9**: a 4-population optimizer (μ = 2) stepped with a single
code at generation 0. -/
theorem stepChol_underpop_witness :
    ((cholInit 1 (some 4) 3 none (some 10) none none none).istep = 0 ∧
     (cholInit 1 (some 4) 3 none (some 10) none none none).init_x = none ∧
     (cholInit 1 (some 4) 3 none (some 10) none none none).weights
       = cmaWeights (cholInit 1 (some 4) 3 none (some 10) none none none).lambda_ ∧
     2 ≤ (cholInit 1 (some 4) 3 none (some 10) none none none).lambda_ ∧
     1 ≤ ([(5 : ℝ)]).length ∧
     ([(5 : ℝ)]).length < (cholInit 1 (some 4) 3 none (some 10) none none none).mu) ∧
    ((stepChol (cholInit 1 (some 4) 3 none (some 10) none none none) [5]
        [fun _ => 2] []).1.xmean
      = listWeightedSum
          (((cholInit 1 (some 4) 3 none (some 10) none none none).weights.take
              ([(5 : ℝ)]).length).map
            (fun x => x / ((cholInit 1 (some 4) 3 none (some 10) none none none).weights.take
              ([(5 : ℝ)]).length).sum))
          (selRows (sortIdxOf (cholInit 1 (some 4) 3 none (some 10) none none none).maximize [5])
            (cholInit 1 (some 4) 3 none (some 10) none none none).mu [fun _ => 2]) ∧
     (((cholInit 1 (some 4) 3 none (some 10) none none none).weights.take
          ([(5 : ℝ)]).length).map
        (fun x => x / ((cholInit 1 (some 4) 3 none (some 10) none none none).weights.take
          ([(5 : ℝ)]).length).sum)).sum = 1) := by
  refine ⟨⟨rfl, rfl, rfl, by norm_num [cholInit], by norm_num, by norm_num [cholInit]⟩, ?_⟩
  exact stepChol_underpop _ [5] [fun _ => 2] [] rfl rfl rfl rfl
    (by norm_num [cholInit]) (by norm_num) (by norm_num [cholInit])

/-- Concrete one-dimensional state whose refresh normalizer is exactly zero
(`pc = 0`, hence `v = pc @ Ainv = 0`) while the refresh condition
`counteval - eigeneval > update_crit` holds. -/
noncomputable def c2State : CholState 1 :=
  { lambda_ := 4
    mu := 0
    maximize := true
    weights := []
    mueff := 1
    cc := 0
    cs := 0
    c1 := 3 / 4
    damps := 1
    chiN := 1
    sigma := 1
    update_crit := 1
    init_x := none
    xmean := 0
    xold := 0
    pc := 0
    ps := 0
    A := 1
    Ainv := 1
    eigeneval := 0
    counteval := 5
    istep := 1
    randz := [] }

/-- **C2 exhibit** (the claim is *not* satisfied by the code): at a state whose
refresh normalizer `v @ v.T` is exactly zero, `step_simple` neither skips nor
guards the rank-one refresh — the branch still executes (it records
`eigeneval := counteval`) and overwrites `A` (here with `sqrt(1-c1) • A ≠ A`,
and in floating point the division by the zero normalizer produces NaN/Inf). -/
theorem stepChol_refresh_unguarded :
    (vecMul (cholPcNew c2State [1]) c2State.Ainv)
        ⬝ᵥ (vecMul (cholPcNew c2State [1]) c2State.Ainv) = 0 ∧
    (stepChol c2State [1] [0] [0]).1.eigeneval = c2State.counteval ∧
    (stepChol c2State [1] [0] [0]).1.A ≠ c2State.A := by
  have hpc : cholPcNew c2State [1] = 0 := by
    funext i
    simp [cholPcNew, cholRandzw, pathUpdate, listWeightedSum, selRows, c2State]
  have hv : vecMul (cholPcNew c2State [1]) c2State.Ainv = 0 := by
    rw [hpc]
    simp [c2State]
  have hcond : ((c2State.counteval : ℝ) - (c2State.eigeneval : ℝ) > c2State.update_crit) := by
    norm_num [c2State]
  refine ⟨by rw [hv]; simp, ?_, ?_⟩
  · rw [stepChol, if_neg (by simp [c2State] : ¬ c2State.istep = 0)]
    simp only [if_pos hcond]
  · rw [stepChol, if_neg (by simp [c2State] : ¬ c2State.istep = 0)]
    simp only [if_pos hcond]
    rw [hv, hpc]
    intro hcontra
    have h00 := congrFun (congrFun hcontra 0) 0
    have hsq : Real.sqrt (1 - c2State.c1) = 1 / 2 := by
      rw [show (1 : ℝ) - c2State.c1 = (1 / 2) ^ 2 by norm_num [c2State],
        Real.sqrt_sq (by norm_num : (0 : ℝ) ≤ 1 / 2)]
    rw [refreshA] at h00
    simp only [Matrix.add_apply, Matrix.smul_apply, vecMulVec_apply, Pi.zero_apply, mul_zero,
      zero_mul, smul_eq_mul, add_zero] at h00
    rw [hsq] at h00
    have hA00 : c2State.A 0 0 = 1 := by
      simp [c2State, Matrix.one_apply]
    rw [hA00] at h00
    norm_num at h00

/-! ## CholeskyCMAES_torch (lines 154-284) and CholeskyCMAES_torch_noCMA
(lines 287-416).  Over the reals the torch backend computes the same update as
the numpy one, so `CholeskyCMAES_torch` shares the state type and helpers. -/

/-- `CholeskyCMAES_torch.step_simple` (lines 226-284). -/
noncomputable def stepCholTorch {n : ℕ} (st : CholState n) (scores : List ℝ)
    (codes rz : List (Fin n → ℝ)) : CholState n × List (Fin n → ℝ) :=
  if st.istep = 0 then
    let xmean' := cholFirstMean st scores codes
    ({ st with
        xmean := xmean'
        randz := rz
        counteval := st.counteval + st.lambda_
        istep := st.istep + 1 },
      rz.map (fun z => xmean' + st.sigma • vecMul z st.A))
  else
    let xmean' := listWeightedSum st.weights
      (selRows (sortIdxOf st.maximize scores) st.mu codes)
    let ps' := cholPsNew st scores
    let pc' := cholPcNew st scores
    let sigma' := st.sigma * Real.exp ((st.cs / st.damps) * (normE ps' / st.chiN - 1))
    let upd : Matrix (Fin n) (Fin n) ℝ × Matrix (Fin n) (Fin n) ℝ × ℕ :=
      if (st.counteval : ℝ) - (st.eigeneval : ℝ) > st.update_crit then
        (refreshA st.c1 st.A pc' (vecMul pc' st.Ainv)
            ((vecMul pc' st.Ainv) ⬝ᵥ (vecMul pc' st.Ainv)),
         refreshAinv st.c1 st.Ainv (vecMul pc' st.Ainv)
            ((vecMul pc' st.Ainv) ⬝ᵥ (vecMul pc' st.Ainv)),
         st.counteval)
      else (st.A, st.Ainv, st.eigeneval)
    ({ st with
        xold := st.xmean
        xmean := xmean'
        ps := ps'
        pc := pc'
        sigma := sigma'
        A := upd.1
        Ainv := upd.2.1
        eigeneval := upd.2.2
        counteval := st.counteval + st.lambda_
        istep := st.istep + 1
        randz := rz },
      rz.map (fun z => xmean' + sigma' • vecMul z upd.1))

/-- Mutable state of `CholeskyCMAES_torch_noCMA`: the same fields except that
the factor pair `A`, `Ainv` is absent (lines 342-343 are commented out). -/
structure NoCMAState (n : ℕ) where
  lambda_ : ℕ
  mu : ℕ
  maximize : Bool
  weights : List ℝ
  mueff : ℝ
  cc : ℝ
  cs : ℝ
  c1 : ℝ
  damps : ℝ
  chiN : ℝ
  sigma : ℝ
  update_crit : ℝ
  init_x : Option (Fin n → ℝ)
  xmean : Fin n → ℝ
  xold : Fin n → ℝ
  pc : Fin n → ℝ
  ps : Fin n → ℝ
  eigeneval : ℕ
  counteval : ℕ
  istep : ℕ
  randz : List (Fin n → ℝ)

/-- First-generation mean of the noCMA variant (lines 374-381). -/
noncomputable def noCMAFirstMean {n : ℕ} (st : NoCMAState n) (scores : List ℝ)
    (codes : List (Fin n → ℝ)) : Fin n → ℝ :=
  match st.init_x with
  | some x0 => x0
  | none =>
      let select_n := ((sortIdxOf st.maximize scores).take st.mu).length
      let tw := (st.weights.take select_n).map
        (fun x => x / (st.weights.take select_n).sum)
      listWeightedSum tw (selRows (sortIdxOf st.maximize scores) st.mu codes)

/-- `randzw` of the noCMA variant (line 387). -/
noncomputable def noCMARandzw {n : ℕ} (st : NoCMAState n) (scores : List ℝ) : Fin n → ℝ :=
  listWeightedSum st.weights (selRows (sortIdxOf st.maximize scores) st.mu st.randz)

/-- `ps` update of the noCMA variant (line 388). -/
noncomputable def noCMAPsNew {n : ℕ} (st : NoCMAState n) (scores : List ℝ) : Fin n → ℝ :=
  pathUpdate st.cs st.mueff st.ps (noCMARandzw st scores)

/-- `pc` update of the noCMA variant (line 389): no `@ A`. -/
noncomputable def noCMAPcNew {n : ℕ} (st : NoCMAState n) (scores : List ℝ) : Fin n → ℝ :=
  pathUpdate st.cc st.mueff st.pc (noCMARandzw st scores)

/-- `CholeskyCMAES_torch_noCMA.step_simple` (lines 358-416): the factor refresh
block is commented out and sampling uses `randz` directly. -/
noncomputable def stepNoCMA {n : ℕ} (st : NoCMAState n) (scores : List ℝ)
    (codes rz : List (Fin n → ℝ)) : NoCMAState n × List (Fin n → ℝ) :=
  if st.istep = 0 then
    let xmean' := noCMAFirstMean st scores codes
    ({ st with
        xmean := xmean'
        randz := rz
        counteval := st.counteval + st.lambda_
        istep := st.istep + 1 },
      rz.map (fun z => xmean' + st.sigma • z))
  else
    let xmean' := listWeightedSum st.weights
      (selRows (sortIdxOf st.maximize scores) st.mu codes)
    let ps' := noCMAPsNew st scores
    let pc' := noCMAPcNew st scores
    let sigma' := st.sigma * Real.exp ((st.cs / st.damps) * (normE ps' / st.chiN - 1))
    ({ st with
        xold := st.xmean
        xmean := xmean'
        ps := ps'
        pc := pc'
        sigma := sigma'
        counteval := st.counteval + st.lambda_
        istep := st.istep + 1
        randz := rz },
      rz.map (fun z => xmean' + sigma' • z))

/-- Forget the factor pair of a `CholeskyCMAES_torch` state. -/
def eraseFactor {n : ℕ} (st : CholState n) : NoCMAState n :=
  { lambda_ := st.lambda_
    mu := st.mu
    maximize := st.maximize
    weights := st.weights
    mueff := st.mueff
    cc := st.cc
    cs := st.cs
    c1 := st.c1
    damps := st.damps
    chiN := st.chiN
    sigma := st.sigma
    update_crit := st.update_crit
    init_x := st.init_x
    xmean := st.xmean
    xold := st.xold
    pc := st.pc
    ps := st.ps
    eigeneval := st.eigeneval
    counteval := st.counteval
    istep := st.istep
    randz := st.randz }

/-- **C8** With identical configuration, inputs and pseudo-random draws, when
`A = I` and the factor-refresh condition does not hold, the factor-disabled
variant produces exactly the same new codes and the same post-state (mean,
paths, σ, counters) as `CholeskyCMAES_torch`, whose factor pair stays `A = I`,
`Ainv` unchanged. -/
theorem stepNoCMA_equiv_stepCholTorch {n : ℕ} (st : CholState n) (scores : List ℝ)
    (codes rz : List (Fin n → ℝ)) (hA : st.A = 1)
    (hcond : ¬ ((st.counteval : ℝ) - (st.eigeneval : ℝ) > st.update_crit)) :
    stepNoCMA (eraseFactor st) scores codes rz
      = (eraseFactor (stepCholTorch st scores codes rz).1,
         (stepCholTorch st scores codes rz).2) ∧
    (stepCholTorch st scores codes rz).1.A = 1 ∧
    (stepCholTorch st scores codes rz).1.Ainv = st.Ainv := by
  refine ⟨?_, ?_, ?_⟩
  · by_cases h0 : st.istep = 0
    · rw [stepNoCMA, stepCholTorch, if_pos (show (eraseFactor st).istep = 0 from h0),
        if_pos h0]
      simp only [hA, vecMul_one]
      rfl
    · have hrz : noCMARandzw (eraseFactor st) scores = cholRandzw st scores := rfl
      have hps : noCMAPsNew (eraseFactor st) scores = cholPsNew st scores := rfl
      have hpc : noCMAPcNew (eraseFactor st) scores = cholPcNew st scores := by
        rw [noCMAPcNew, cholPcNew, hA, hrz]
        simp [vecMul_one, eraseFactor]
      rw [stepNoCMA, stepCholTorch, if_neg (show ¬ (eraseFactor st).istep = 0 from h0),
        if_neg h0]
      simp only [if_neg hcond]
      rw [hps, hpc]
      simp only [hA, vecMul_one]
      rfl
  · by_cases h0 : st.istep = 0
    · rw [stepCholTorch, if_pos h0]
      exact hA
    · rw [stepCholTorch, if_neg h0]
      simp only [if_neg hcond]
      exact hA
  · by_cases h0 : st.istep = 0
    · rw [stepCholTorch, if_pos h0]
    · rw [stepCholTorch, if_neg h0]
      simp only [if_neg hcond]

/-- Concrete torch state (identity factor, refresh condition false) for the C8
witness. -/
noncomputable def c8WitState : CholState 1 :=
  { lambda_ := 4
    mu := 2
    maximize := true
    weights := [1 / 2, 1 / 2]
    mueff := 2
    cc := 1 / 2
    cs := 1 / 2
    c1 := 1 / 2
    damps := 1
    chiN := 1
    sigma := 1
    update_crit := 40
    init_x := none
    xmean := 0
    xold := 0
    pc := 0
    ps := 0
    A := 1
    Ainv := 1
    eigeneval := 0
    counteval := 4
    istep := 1
    randz := [fun _ => 1] }

/-- Witness for **C8** at a concrete one-dimensional state and inputs. -/
theorem stepNoCMA_equiv_stepCholTorch_witness :
    (c8WitState.A = 1 ∧
     ¬ ((c8WitState.counteval : ℝ) - (c8WitState.eigeneval : ℝ) > c8WitState.update_crit)) ∧
    (stepNoCMA (eraseFactor c8WitState) [1, 2] [fun _ => 1, fun _ => 2] [0]
        = (eraseFactor (stepCholTorch c8WitState [1, 2] [fun _ => 1, fun _ => 2] [0]).1,
           (stepCholTorch c8WitState [1, 2] [fun _ => 1, fun _ => 2] [0]).2) ∧
     (stepCholTorch c8WitState [1, 2] [fun _ => 1, fun _ => 2] [0]).1.A = 1 ∧
     (stepCholTorch c8WitState [1, 2] [fun _ => 1, fun _ => 2] [0]).1.Ainv
        = c8WitState.Ainv) :=
  ⟨⟨rfl, by norm_num [c8WitState]⟩,
    stepNoCMA_equiv_stepCholTorch c8WitState [1, 2] [fun _ => 1, fun _ => 2] [0] rfl
      (by norm_num [c8WitState])⟩

/-! ## HessCMAES.set_Hessian (Optimizers.py lines 613-619)

`cutoff = self.space_dimen; self.eigvals = eigvals[:cutoff];
 self.eigvects = eigvects[:, :cutoff]; self.scaling = self.eigvals ** (-expon);
 self.A = self.scaling[:,np.newaxis] * self.eigvects.T;
 self.Ainv = (1 / self.scaling[np.newaxis,:]) * self.eigvects`.
`M` is the cutoff fixed at construction (the `cutoff` argument of `set_Hessian`
is shadowed by `self.space_dimen`), `D` the ambient code length. -/

/-- The factor `A` set by `set_Hessian`: `A[i,j] = eigvals[i]^(-expon) * V[j,i]`
(an `M × D` matrix). -/
noncomputable def hessA (M D : ℕ) (eigvals : ℕ → ℝ) (eigvects : Fin D → ℕ → ℝ)
    (expon : ℝ) : Matrix (Fin M) (Fin D) ℝ :=
  Matrix.of fun i j => eigvals i.val ^ (-expon) * eigvects j i.val

/-- The factor `Ainv` set by `set_Hessian`: `Ainv[j,i] = (1/eigvals[i]^(-expon)) * V[j,i]`
(a `D × M` matrix). -/
noncomputable def hessAinv (M D : ℕ) (eigvals : ℕ → ℝ) (eigvects : Fin D → ℕ → ℝ)
    (expon : ℝ) : Matrix (Fin D) (Fin M) ℝ :=
  Matrix.of fun j i => 1 / (eigvals i.val ^ (-expon)) * eigvects j i.val

/-- **C7** After `set_Hessian` with positive eigenvalues, the factor pair equals
`A = diag(λ_i^(−p))·Vᵀ` and `A⁻¹ = V·diag(λ_i^p)` restricted to the first `M`
eigenpairs (`M` the construction-time cutoff); consequently `A·A⁻¹ = I_M` when
the supplied eigenvector columns are orthonormal. -/
theorem set_Hessian_spec (M D : ℕ) (eigvals : ℕ → ℝ) (eigvects : Fin D → ℕ → ℝ)
    (expon : ℝ) (hpos : ∀ i : Fin M, 0 < eigvals i.val)
    (horth : ∀ i k : Fin M, (∑ j : Fin D, eigvects j i.val * eigvects j k.val)
        = if i = k then (1 : ℝ) else 0) :
    hessA M D eigvals eigvects expon
        = Matrix.diagonal (fun i : Fin M => eigvals i.val ^ (-expon))
          * Matrix.of (fun (i : Fin M) (j : Fin D) => eigvects j i.val) ∧
    hessAinv M D eigvals eigvects expon
        = Matrix.of (fun (j : Fin D) (i : Fin M) => eigvects j i.val)
          * Matrix.diagonal (fun i : Fin M => eigvals i.val ^ expon) ∧
    hessA M D eigvals eigvects expon * hessAinv M D eigvals eigvects expon = 1 := by
  refine ⟨?_, ?_, ?_⟩
  · ext i j
    rw [hessA, Matrix.diagonal_mul]
    rfl
  · ext j i
    rw [hessAinv, Matrix.mul_diagonal]
    have : (1 : ℝ) / (eigvals i.val ^ (-expon)) = eigvals i.val ^ expon := by
      rw [Real.rpow_neg (hpos i).le, one_div, inv_inv]
    rw [Matrix.of_apply, this, mul_comm]
    rfl
  · ext i k
    rw [Matrix.mul_apply]
    have hterm : ∀ j : Fin D,
        hessA M D eigvals eigvects expon i j * hessAinv M D eigvals eigvects expon j k
          = (eigvals i.val ^ (-expon) * (1 / (eigvals k.val ^ (-expon))))
              * (eigvects j i.val * eigvects j k.val) := by
      intro j
      rw [hessA, hessAinv, Matrix.of_apply, Matrix.of_apply]
      ring
    rw [Finset.sum_congr rfl (fun j _ => hterm j), ← Finset.mul_sum, horth i k]
    by_cases hik : i = k
    · subst hik
      rw [if_pos rfl, mul_one, Matrix.one_apply_eq]
      have hne : eigvals i.val ^ (-expon) ≠ 0 :=
        ne_of_gt (Real.rpow_pos_of_pos (hpos i) _)
      field_simp
    · rw [if_neg hik, mul_zero, Matrix.one_apply_ne hik]

/-- Witness for **C7** at `M = D = 1`, unit eigenvalue, unit eigenvector and the
default exponent `p = 1/2.5 = 0.4`. -/
theorem set_Hessian_spec_witness :
    ((∀ i : Fin 1, 0 < (fun _ : ℕ => (1 : ℝ)) i.val) ∧
     (∀ i k : Fin 1, (∑ j : Fin 1, (fun _ : Fin 1 => fun _ : ℕ => (1 : ℝ)) j i.val
          * (fun _ : Fin 1 => fun _ : ℕ => (1 : ℝ)) j k.val) = if i = k then (1 : ℝ) else 0)) ∧
    hessA 1 1 (fun _ => 1) (fun _ _ => 1) (2 / 5)
        * hessAinv 1 1 (fun _ => 1) (fun _ _ => 1) (2 / 5) = 1 := by
  have hpos : ∀ i : Fin 1, 0 < (fun _ : ℕ => (1 : ℝ)) i.val := fun i => by norm_num
  have horth : ∀ i k : Fin 1, (∑ j : Fin 1, (fun _ : Fin 1 => fun _ : ℕ => (1 : ℝ)) j i.val
      * (fun _ : Fin 1 => fun _ : ℕ => (1 : ℝ)) j k.val) = if i = k then (1 : ℝ) else 0 := by
    intro i k
    have : i = k := Subsingleton.elim i k
    subst this
    simp
  exact ⟨⟨hpos, horth⟩,
    (set_Hessian_spec 1 1 (fun _ => 1) (fun _ _ => 1) (2 / 5) hpos horth).2.2⟩

/-! ## ZOHA_Sphere_lr_euclid (Optimizers.py lines 431-545)

The geometry helpers `renormalize`, `ExpMap` and `SLERP` are imported from
`circuit_toolkit.geometry_utils`, which is not part of the provided source;
they are modelled from the spec (sections 3 and 4.4). -/

/-- Modelled from the spec: `renormalize` ("renormalize every row to exactly
radius r") rescales a row to Euclidean norm `r`; the missing code is
`circuit_toolkit.geometry_utils.renormalize`, applied row-wise at line 544. -/
noncomputable def renormRow {n : ℕ} (r : ℝ) (v : Fin n → ℝ) : Fin n → ℝ :=
  (r / normE v) • v

/-- Modelled from the spec: `ExpMap` ("map each back onto the sphere via the
exponential map anchored at the new base point") moves from base point `x`
along tangent `u`, treating `‖u‖` as an angle; the missing code is
`circuit_toolkit.geometry_utils.ExpMap`, used at line 536. -/
noncomputable def ExpMap {n : ℕ} (x u : Fin n → ℝ) : Fin n → ℝ :=
  Real.cos (normE u) • x + (Real.sin (normE u) * normE x / normE u) • u

/-- Modelled from the spec: `SLERP` ("spherical linear interpolation ... must
use the great-circle angle between base and target") interpolates from `p`
toward `q` by the fraction `t` of their angle; the missing code is
`circuit_toolkit.geometry_utils.SLERP`, used at line 521. -/
noncomputable def SLERP {n : ℕ} (p q : Fin n → ℝ) (t : ℝ) : Fin n → ℝ :=
  (Real.sin ((1 - t) * Real.arccos ((p ⬝ᵥ q) / (normE p * normE q)))
      / Real.sin (Real.arccos ((p ⬝ᵥ q) / (normE p * normE q)))) • p
    + (Real.sin (t * Real.arccos ((p ⬝ᵥ q) / (normE p * normE q)))
      / Real.sin (Real.arccos ((p ⬝ᵥ q) / (normE p * normE q)))) • q

/-- Raw-score weights `(scores - scores[0]) / B` (lines 484 and 501);
`B` is the configured population size of the engine. -/
noncomputable def sphereRawWeights (B : ℕ) (scores : List ℝ) : List ℝ :=
  scores.map (fun s => (s - scores.headD 0) / (B : ℝ))

/-- `argsort` of a list of naturals (the outer argsort of
`scores.argsort().argsort()`). -/
def argsortN (s : List ℕ) : List ℕ :=
  (List.range s.length).mergeSort (fun i j => decide (s.getD i 0 ≤ s.getD j 0))

/-- `code_rank`: rank of each entry, ascending when minimizing, descending when
maximizing (lines 486-489, 507-510). -/
noncomputable def sphereRanks (maximize : Bool) (s : List ℝ) : List ℕ :=
  if maximize then argsortN (argsortR (s.map fun x => -x)) else argsortN (argsortR s)

/-- `mu = mulist[istep + 1] if istep < len(mulist) - 1 else mulist[-1]`
(line 532). -/
noncomputable def scheduleMu (mulist : List ℝ) (istep : ℤ) : ℝ :=
  if istep < (mulist.length : ℤ) - 1 then mulist.getD (istep + 1).toNat 0
  else mulist.getLastD 0

/-- One entry of the `"inv"` learning-rate schedule
`(15 + 1/(0.0017*g + 0.0146)) / 180 * pi / sqrt(dimen)` for `g = 1..n_gen`
(lines 460-463). -/
noncomputable def muInvEntry (dimen g : ℕ) : ℝ :=
  (15 + 1 / (0.0017 * ((g : ℝ) + 1) + 0.0146)) / 180 * Real.pi / Real.sqrt (dimen : ℝ)

/-- `lr_schedule(n_gen, mode="inv")`: the list `mulist` (lines 459-464). -/
noncomputable def lrScheduleInv (n_gen dimen : ℕ) : List ℝ :=
  (List.range n_gen).map (muInvEntry dimen)

/-- Mutable state of a `ZOHA_Sphere_lr_euclid` instance (lines 432-452 plus the
schedule `mulist` set by `lr_schedule`). -/
structure SphereState (n : ℕ) where
  B : ℕ
  select_cutoff : ℕ
  sphere_norm : ℝ
  lr : ℝ
  tang_codes : List (Fin n → ℝ)
  grad : Fin n → ℝ
  innerU : List (Fin n → ℝ)
  outerV : List (Fin n → ℝ)
  xcur : Fin n → ℝ
  xnew : Fin n → ℝ
  istep : ℤ
  maximize : Bool
  rankweight : Bool
  rankbasis : Bool
  mulist : List ℝ

/-- Recombination weights of the uninitialized branch (lines 482-492). -/
noncomputable def sphereWeightsInit {n : ℕ} (st : SphereState n) (scores : List ℝ) :
    List ℝ :=
  if ¬ st.rankweight then sphereRawWeights st.B scores
  else
    let code_rank := sphereRanks st.maximize scores
    let raw_weights := rankweight code_rank.length ((code_rank.length : ℝ) / 2)
    code_rank.map (fun r => raw_weights.getD r 0)

/-- Recombination weights of the running branch (lines 499-516): without
`rankbasis` the basis row is excluded from ranking and prepended weight 0. -/
noncomputable def sphereWeightsRun {n : ℕ} (st : SphereState n) (scores : List ℝ) :
    List ℝ :=
  if ¬ st.rankweight then sphereRawWeights st.B scores
  else
    let rankedscore := if ¬ st.rankbasis then scores.tail else scores
    let code_rank := sphereRanks st.maximize rankedscore
    let raw_weights := rankweight code_rank.length (st.select_cutoff : ℝ)
    let weights := code_rank.map (fun r => raw_weights.getD r 0)
    if ¬ st.rankbasis then 0 :: weights else weights

/-- The new base point (lines 495-496 and 519-521): weighted euclidean mean,
projected back to the shell, and SLERP-extrapolated in the running branch. -/
noncomputable def sphereXnew {n : ℕ} (st : SphereState n) (scores : List ℝ)
    (codes : List (Fin n → ℝ)) : Fin n → ℝ :=
  if st.istep = -1 then
    let w_mean := listWeightedSum (sphereWeightsInit st scores) codes
    (st.sphere_norm / normE w_mean) • w_mean
  else
    let w_mean := listWeightedSum (sphereWeightsRun st scores) codes
    SLERP st.xcur ((st.sphere_norm / normE w_mean) • w_mean) st.lr

/-- Orthogonal projection of the isotropic draws onto the tangent plane of the
new base point (lines 530-531). -/
noncomputable def sphereOuterV {n : ℕ} (xnew : Fin n → ℝ) (U : List (Fin n → ℝ)) :
    List (Fin n → ℝ) :=
  U.map (fun u => u - ((u ⬝ᵥ xnew) / normE xnew ^ 2) • xnew)

/-- The stacked new samples before the final renormalization (lines 533-536):
row 0 is the new base point, rows 1.. are `ExpMap(xnew, mu * outerV)`. -/
noncomputable def stepSphereRaw {n : ℕ} (st : SphereState n) (scores : List ℝ)
    (codes U : List (Fin n → ℝ)) : List (Fin n → ℝ) :=
  let xnew := sphereXnew st scores codes
  xnew :: (sphereOuterV xnew U).map
    (fun v => ExpMap xnew (scheduleMu st.mulist st.istep • v))

/-- `ZOHA_Sphere_lr_euclid.step_simple` (lines 473-545); the isotropic draw
`randn(B, N)` is the explicit argument `U`, and every returned row is finally
renormalized to the sphere radius (line 544). -/
noncomputable def stepSphere {n : ℕ} (st : SphereState n) (scores : List ℝ)
    (codes U : List (Fin n → ℝ)) : SphereState n × List (Fin n → ℝ) :=
  let xnew := sphereXnew st scores codes
  let outerV := sphereOuterV xnew U
  ({ st with
      xcur := codes.headD 0
      xnew := xnew
      innerU := U
      outerV := outerV
      tang_codes := outerV.map (fun v => scheduleMu st.mulist st.istep • v)
      istep := st.istep + 1 },
    (stepSphereRaw st scores codes U).map (renormRow st.sphere_norm))

/-- **C3 counterexample** The original claim says the raw-mode weight of score
`s` is `(s - best)/B` with `best` the best score of the population: false — at
`scores = [1, 2]` (maximizing, best = 2, B = 2) the first individual's weight is
`(1 - 1)/2 = 0`, not `(1 - 2)/2`. -/
theorem sphereRawWeights_not_best :
    (sphereRawWeights 2 [1, 2]).getD 0 0 ≠ ((1 : ℝ) - 2) / 2 := by
  norm_num [sphereRawWeights]

/-- **C3 (amended)** In raw-score mode the per-individual weight of the
individual with score `s` is `(s - s₀)/B`, where `s₀` is the score of the
*first* supplied individual (the basis row, not the best score) and `B` the
configured population size. -/
theorem sphereRawWeights_spec (B : ℕ) (scores : List ℝ) (i : ℕ)
    (hi : i < scores.length) :
    (sphereRawWeights B scores).getD i 0
      = (scores.getD i 0 - scores.headD 0) / (B : ℝ) := by
  simp [sphereRawWeights, List.getD_eq_getElem?_getD, List.getElem?_map,
    List.getElem?_eq_getElem hi]

/-- Witness for the amended **C3** at `scores = [1, 2]`, `B = 2`, `i = 1`. -/
theorem sphereRawWeights_spec_witness :
    1 < ([(1 : ℝ), 2]).length ∧
    (sphereRawWeights 2 [1, 2]).getD 1 0
      = (([(1 : ℝ), 2]).getD 1 0 - ([(1 : ℝ), 2]).headD 0) / ((2 : ℕ) : ℝ) :=
  ⟨by norm_num, sphereRawWeights_spec 2 [1, 2] 1 (by norm_num)⟩

/-- **C4 (amended)** Every row returned by the spherical `step_simple` has
Euclidean norm equal to the configured sphere radius, at every generation
including the first, provided the radius is positive and no pre-renormalization
row is the zero vector (degenerate inputs, e.g. all-equal scores in raw-weight
mode, make the weighted mean zero and violate the invariant). -/
theorem stepSphere_rows_norm {n : ℕ} (st : SphereState n) (scores : List ℝ)
    (codes U : List (Fin n → ℝ)) (hr : 0 < st.sphere_norm)
    (hnz : ∀ v ∈ stepSphereRaw st scores codes U, v ≠ 0) :
    ∀ w ∈ (stepSphere st scores codes U).2, normE w = st.sphere_norm := by
  intro w hw
  have h2 : (stepSphere st scores codes U).2
      = (stepSphereRaw st scores codes U).map (renormRow st.sphere_norm) := rfl
  rw [h2] at hw
  obtain ⟨v, hv, rfl⟩ := List.mem_map.1 hw
  have hvne := hnz v hv
  have hne : normE v ≠ 0 := fun h => hvne ((normE_eq_zero_iff v).1 h)
  have hnv : 0 < normE v := lt_of_le_of_ne (normE_nonneg v) (Ne.symm hne)
  rw [renormRow, normE_smul, abs_of_pos (div_pos hr hnv), div_mul_cancel₀ _ hne]

/-- Concrete spherical state: first generation, raw-weight mode, radius 300,
one-generation schedule. -/
noncomputable def c4DegenState : SphereState 1 :=
  { B := 2
    select_cutoff := 1
    sphere_norm := 300
    lr := 3 / 2
    tang_codes := []
    grad := 0
    innerU := []
    outerV := []
    xcur := 0
    xnew := 0
    istep := -1
    maximize := true
    rankweight := false
    rankbasis := false
    mulist := [1] }

/-- **C4 counterexample** The claim as stated fails on a degenerate input: with
all scores equal in raw-weight mode the weighted mean is the zero vector, and
the returned row 0 has norm 0, not the configured radius 300 (the Python code
divides 0/0 here and returns NaN rows). -/
theorem stepSphere_rows_norm_cex :
    normE ((stepSphere c4DegenState [1, 1] [fun _ => 1, fun _ => 1] [0, 0]).2.getD 0 0)
      ≠ 300 := by
  have hw : sphereWeightsInit c4DegenState [1, 1] = [0, 0] := by
    simp [sphereWeightsInit, c4DegenState, sphereRawWeights]
  have hmean : listWeightedSum ([(0 : ℝ), 0])
      [(fun _ => (1 : ℝ) : Fin 1 → ℝ), fun _ => 1] = 0 := by
    simp [listWeightedSum]
  have hxnew : sphereXnew c4DegenState [1, 1] [fun _ => 1, fun _ => 1] = 0 := by
    rw [sphereXnew, if_pos (show c4DegenState.istep = -1 from rfl)]
    simp only [hw, hmean, smul_zero]
  rw [show (stepSphere c4DegenState [1, 1] [fun _ => 1, fun _ => 1] [0, 0]).2
      = (stepSphereRaw c4DegenState [1, 1] [fun _ => 1, fun _ => 1] [0, 0]).map
          (renormRow c4DegenState.sphere_norm) from rfl, stepSphereRaw]
  simp only [hxnew, List.map_cons, List.getD_cons_zero, renormRow, smul_zero, normE_zero]
  norm_num

/-- Witness for the amended **C4**: a nondegenerate first-generation call whose
rows all land exactly on the radius-300 sphere. -/
theorem stepSphere_rows_norm_witness :
    (0 < c4DegenState.sphere_norm ∧
     ∀ v ∈ stepSphereRaw c4DegenState [0, 2] [fun _ => 1, fun _ => 1] [0, 0], v ≠ 0) ∧
    ∀ w ∈ (stepSphere c4DegenState [0, 2] [fun _ => 1, fun _ => 1] [0, 0]).2,
      normE w = c4DegenState.sphere_norm := by
  have hr : 0 < c4DegenState.sphere_norm := by norm_num [c4DegenState]
  have hw : sphereWeightsInit c4DegenState [0, 2] = [0, 1] := by
    simp [sphereWeightsInit, c4DegenState, sphereRawWeights]
  have hmean : listWeightedSum ([(0 : ℝ), 1])
      [(fun _ => (1 : ℝ) : Fin 1 → ℝ), fun _ => 1] = (fun _ => (1 : ℝ)) := by
    funext i
    simp [listWeightedSum]
  have hnormc : normE (fun _ : Fin 1 => (1 : ℝ)) = 1 := by
    rw [normE]
    simp [Fin.sum_univ_one]
  have hxnew : sphereXnew c4DegenState [0, 2] [fun _ => 1, fun _ => 1]
      = (fun _ : Fin 1 => (300 : ℝ)) := by
    rw [sphereXnew, if_pos (show c4DegenState.istep = -1 from rfl)]
    simp only [hw, hmean, hnormc]
    funext i
    simp [c4DegenState]
  have houter : sphereOuterV (fun _ : Fin 1 => (300 : ℝ)) [0, 0] = [0, 0] := by
    simp [sphereOuterV]
  have hexp : ExpMap (fun _ : Fin 1 => (300 : ℝ))
      (scheduleMu c4DegenState.mulist c4DegenState.istep • (0 : Fin 1 → ℝ))
        = (fun _ : Fin 1 => (300 : ℝ)) := by
    rw [smul_zero, ExpMap, normE_zero]
    simp
  have hraw : stepSphereRaw c4DegenState [0, 2] [fun _ => 1, fun _ => 1] [0, 0]
      = [fun _ => 300, fun _ => 300, fun _ => 300] := by
    rw [stepSphereRaw]
    simp only [hxnew, houter, List.map_cons, List.map_nil, hexp]
  have hnz : ∀ v ∈ stepSphereRaw c4DegenState [0, 2] [fun _ => 1, fun _ => 1] [0, 0],
      v ≠ 0 := by
    intro v hv
    rw [hraw] at hv
    have hx : (fun _ : Fin 1 => (300 : ℝ)) ≠ (0 : Fin 1 → ℝ) := by
      intro h
      have := congrFun h 0
      norm_num at this
    simp only [List.mem_cons, List.not_mem_nil, or_false] at hv
    rcases hv with h | h | h <;> (subst h; exact hx)
  exact ⟨⟨hr, hnz⟩, stepSphere_rows_norm c4DegenState [0, 2] _ _ hr hnz⟩

/-- **C10** Provided `lr_schedule` (inverse mode, `n_gen ≥ 1` generations) ran
before the first step, the tangent-perturbation scale selected by
`step_simple` (line 532, `scheduleMu`) is the last schedule entry as soon as
the generation index `istep + 1` reaches `n_gen`, and it is always an actual
element of the schedule — never an out-of-range access. -/
theorem scheduleMu_spec (n_gen dimen : ℕ) (istep : ℤ) (hgen : 1 ≤ n_gen)
    (hstep : -1 ≤ istep) :
    ((n_gen : ℤ) ≤ istep + 1 →
      scheduleMu (lrScheduleInv n_gen dimen) istep
        = (lrScheduleInv n_gen dimen).getLastD 0) ∧
    scheduleMu (lrScheduleInv n_gen dimen) istep ∈ lrScheduleInv n_gen dimen := by
  have hlen : (lrScheduleInv n_gen dimen).length = n_gen := by
    simp [lrScheduleInv]
  have hne : lrScheduleInv n_gen dimen ≠ [] := by
    intro h
    rw [h] at hlen
    simp at hlen
    omega
  constructor
  · intro hge
    have hnc : ¬ (istep < ((lrScheduleInv n_gen dimen).length : ℤ) - 1) := by
      rw [hlen]
      omega
    rw [scheduleMu, if_neg hnc]
  · rw [scheduleMu]
    by_cases hc : istep < ((lrScheduleInv n_gen dimen).length : ℤ) - 1
    · rw [if_pos hc]
      have hidx : (istep + 1).toNat < (lrScheduleInv n_gen dimen).length := by
        omega
      rw [List.getD_eq_getElem?_getD, List.getElem?_eq_getElem hidx]
      exact List.getElem_mem hidx
    · rw [if_neg hc]
      rw [List.getLastD_eq_getLast?, List.getLast?_eq_getLast _ hne]
      exact List.getLast_mem hne

/-- Witness for **C10**: a one-entry schedule queried past its end (generation
index 5). -/
theorem scheduleMu_spec_witness :
    (1 ≤ 1 ∧ (-1 : ℤ) ≤ 5) ∧
    ((((1 : ℕ) : ℤ) ≤ 5 + 1 →
      scheduleMu (lrScheduleInv 1 1) 5 = (lrScheduleInv 1 1).getLastD 0) ∧
    scheduleMu (lrScheduleInv 1 1) 5 ∈ lrScheduleInv 1 1) :=
  ⟨⟨le_refl 1, by norm_num⟩, scheduleMu_spec 1 1 5 (le_refl 1) (by norm_num)⟩
